import Mathlib

/-!
Verification of the censore profanity filter (censor-text/censore).

Text is modelled as a list of Unicode code points (Lean Nat).  The
definitions below are shallow embeddings of the functions in
src/censore/profanity_filter.py; case folding models Python str.lower on
the ASCII range (all characters the filter treats specially are ASCII).
-/

namespace Censore

/-- A Python string, as its list of code points. -/
abbrev Str := List Nat

/-- Conversion from a Lean string literal to the code-point model. -/
def str (s : String) : Str := s.data.map Char.toNat

/-- The leetspeak substitution table of ProfanityFilter._substitution_table:
0 to o, 1 to i, @ to a, dollar to s, 3 to e, 5 to s, 7 to t, 8 to b. -/
def subChar (c : Nat) : Nat :=
  if c = 48 then 111      -- 0 to o
  else if c = 49 then 105 -- 1 to i
  else if c = 64 then 97  -- @ to a
  else if c = 36 then 115 -- dollar sign to s
  else if c = 51 then 101 -- 3 to e
  else if c = 53 then 115 -- 5 to s
  else if c = 55 then 116 -- 7 to t
  else if c = 56 then 98  -- 8 to b
  else c

/-- Lower-casing of one character, as Python str.lower acts on ASCII. -/
def lowerChar (c : Nat) : Nat :=
  if 65 ≤ c ∧ c ≤ 90 then c + 32 else c

/-- ProfanityFilter.strip_chars, the code points of the string
".,!?:;/()[]{}-" -/
def stripCharsL : Str := [46, 44, 33, 63, 58, 59, 47, 40, 41, 91, 93, 123, 125, 45]

/-- Whether a character belongs to strip_chars. -/
def isStripChar (c : Nat) : Bool := stripCharsL.contains c

/-- Whitespace as recognised by Python str.split with no argument
(ASCII space, tab, newline, carriage return, form feed, vertical tab). -/
def isSpace (c : Nat) : Bool :=
  c == 32 || c == 9 || c == 10 || c == 13 || c == 12 || c == 11

/-- ProfanityFilter._strip: Python word.strip(strip_chars), removing the
maximal leading and trailing runs of strip characters. -/
def pyStrip (w : Str) : Str :=
  (((w.dropWhile isStripChar).reverse).dropWhile isStripChar).reverse

/-- ProfanityFilter._normalize_word: translate through the substitution
table, then lower-case.  (No stripping here, exactly as in the source.) -/
def normalize_word (w : Str) : Str :=
  (w.map subChar).map lowerChar

/-- The full normalization pipeline applied to a raw token at
profanity_filter.py:373: strip boundary punctuation, substitute, lower. -/
def normalize (w : Str) : Str := normalize_word (pyStrip w)

/-- Boolean test that pat is a prefix of s (character-wise equality). -/
def startsWith : Str → Str → Bool
  | _, [] => true
  | [], _ :: _ => false
  | a :: as, b :: bs => a == b && startsWith as bs

/-- Boolean substring containment, Python pat in hay. -/
def isSubstring (hay pat : Str) : Bool :=
  if startsWith hay pat then true
  else
    match hay with
    | [] => false
    | _ :: t => isSubstring t pat

/-- Propositional substring containment: pat occurs contiguously in hay. -/
def SubstrOf (pat hay : Str) : Prop := ∃ l r, hay = l ++ pat ++ r

/-- ProfanityFilter._is_profane_word: normalize the stripped word; if any
exclude pattern is contained in it the word is not profane; otherwise it
is profane iff some profanity pattern is contained in it. -/
def is_profane_word (w : Str) (profanity_patterns exclude_patterns : List Str) : Bool :=
  let normalized_word := normalize_word (pyStrip w)
  if exclude_patterns.any (fun p => isSubstring normalized_word p) then false
  else profanity_patterns.any (fun p => isSubstring normalized_word p)

/-- ProfanityFilter.censor_word: with partial censoring and length above 2,
keep the first and last characters and mask the interior; otherwise
replace every character by the censoring character. -/
def censor_word (word : Str) (pc : Bool) (censoring_char : Nat) : Str :=
  if pc && decide (2 < word.length) then
    word.take 1 ++ List.replicate (word.length - 2) censoring_char ++
      word.drop (word.length - 1)
  else List.replicate word.length censoring_char

/-- Python text.split() with no argument: split on whitespace runs,
discarding empty pieces. -/
def pySplit (s : Str) : List Str :=
  (s.splitOnP isSpace).filter (fun w => w ≠ [])

theorem startsWith_length {s p : Str} (h : startsWith s p = true) :
    p.length ≤ s.length := by
  induction s generalizing p with
  | nil => cases p with
    | nil => simp
    | cons b bs => simp [startsWith] at h
  | cons a as ih => cases p with
    | nil => simp
    | cons b bs =>
      simp only [startsWith, Bool.and_eq_true] at h
      simpa using ih h.2

/-- Python str.replace for a nonempty pattern: scan left to right,
replacing each non-overlapping occurrence of old by rep.  The fuel
argument only forces structural recursion; any fuel of at least the
length of s plus one runs the scan to completion. -/
def replaceGo (old rep : Str) : Nat → Str → Str
  | 0, s => s
  | fuel + 1, s =>
    if old ≠ [] ∧ startsWith s old = true then
      rep ++ replaceGo old rep fuel (s.drop old.length)
    else
      match s with
      | [] => []
      | c :: t => c :: replaceGo old rep fuel t

/-- Python s.replace(old, rep): every non-overlapping occurrence of old
in s is replaced by rep; an empty old inserts rep between all characters
and at both ends, as CPython does. -/
def replaceAll (s old rep : Str) : Str :=
  if old = [] then rep ++ s.flatMap (fun c => c :: rep)
  else replaceGo old rep (s.length + 1) s

/-- The word loop of ProfanityFilter.censor (profanity_filter.py:447-460):
for each whitespace token, if the token is profane, replace every
occurrence of its stripped form in the running text by the censored word. -/
def censorGo (P E : List Str) (pc : Bool) (sym : Nat) :
    List Str → Str → Str
  | [], censored_text => censored_text
  | word :: ws, censored_text =>
    let stripped_word := pyStrip word
    if is_profane_word word P E then
      censorGo P E pc sym ws
        (replaceAll censored_text stripped_word (censor_word stripped_word pc sym))
    else
      censorGo P E pc sym ws censored_text

/-- ProfanityFilter.censor with the pattern sets already resolved: split
the text on whitespace and run the replacement loop over the tokens. -/
def censor (text : Str) (P E : List Str) (pc : Bool) (sym : Nat) : Str :=
  censorGo P E pc sym (pySplit text) text

/-- The whole-text result record of censore.types.Text:
original, censored, is_profane, words_censored. -/
structure TextR where
  original : Str
  censored : Str
  is_profane : Bool
  words_censored : Nat
deriving DecidableEq

/-- Index of the first occurrence of pat in hay, if any. -/
def firstMatch (hay pat : Str) : Option Nat :=
  if startsWith hay pat then some 0
  else
    match hay with
    | [] => none
    | _ :: t => (firstMatch t pat).map (· + 1)

/-- Modelled from the spec: one occurrence-safe replacement step of the
record-returning censor (absent from src, whose censor returns a plain
string).  Spec 4.4 step 4: replace the first remaining occurrence of the
stripped substring within the output buffer with the censored form, via
progressive index advancement. -/
def replaceFromPos (buf pat rep : Str) (pos : Nat) : Str × Nat :=
  match firstMatch (buf.drop pos) pat with
  | none => (buf, pos)
  | some i =>
    (buf.take (pos + i) ++ rep ++ buf.drop (pos + i + pat.length),
     pos + i + rep.length)

/-- State of the spec-modelled censor pass: output buffer, scan position,
and count of profane tokens found so far. -/
structure CState where
  buf : Str
  pos : Nat
  count : Nat
deriving DecidableEq

/-- Modelled from the spec: the token loop of the record-returning censor
(absent from src).  Spec 4.4 steps 3-5: classify each token, replace the
stripped form of each profane token in the buffer, and count them. -/
def censorFold (P E : List Str) (pc : Bool) (sym : Nat) :
    List Str → CState → CState
  | [], st => st
  | word :: ws, st =>
    if is_profane_word word P E then
      let stripped := pyStrip word
      let cw := censor_word stripped pc sym
      let br := replaceFromPos st.buf stripped cw st.pos
      censorFold P E pc sym ws ⟨br.1, br.2, st.count + 1⟩
    else
      censorFold P E pc sym ws st

/-- Modelled from the spec: the record-returning censor (absent from src;
src's censor returns only the censored string).  Spec 4.4 step 6: return
original text, the output buffer, is_profane as count greater than zero,
and the count of censored words. -/
def censorT (text : Str) (P E : List Str) (pc : Bool) (sym : Nat) : TextR :=
  let st := censorFold P E pc sym (pySplit text) ⟨text, 0, 0⟩
  { original := text
    censored := st.buf
    is_profane := decide (0 < st.count)
    words_censored := st.count }

/-- A per-language pattern set: profanity patterns and exclude patterns
(profanity_patterns[language] in the source).  Frozensets are modelled as
lists with membership semantics. -/
structure PatternSet where
  patterns : List Str
  exclude_patterns : List Str
deriving DecidableEq

/-- The mutable state of a ProfanityFilter: the default active languages
(self.languages) and the registry mapping language keys to their pattern
sets (self.profanity_patterns, a dict modelled as an association list). -/
structure FilterState where
  languages : List Str
  profanity_patterns : List (Str × PatternSet)
deriving DecidableEq

/-- The error raised by _load_languages when pattern files for a language
are missing: ValueError("Patterns for language ... not found"), which the
spec names PatternsNotFound(language). -/
inductive LoadError where
  | PatternsNotFound (language : Str)
deriving DecidableEq

/-- Python dict lookup d.get(k). -/
def dictGet (d : List (Str × PatternSet)) (k : Str) : Option PatternSet :=
  match d with
  | [] => none
  | (k', v) :: t => if k' = k then some v else dictGet t k

/-- Python dict assignment d[k] = v: overwrite in place if the key is
present, else append. -/
def dictInsert (d : List (Str × PatternSet)) (k : Str) (v : PatternSet) :
    List (Str × PatternSet) :=
  match d with
  | [] => [(k, v)]
  | (k', v') :: t =>
    if k' = k then (k', v) :: t else (k', v') :: dictInsert t k v

/-- ProfanityFilter._load_language, with file I/O abstracted as a data
provider (spec 6): if the language is already in self.languages the call
is a no-op; otherwise ask the provider, raise PatternsNotFound when it
has no patterns (the FileNotFoundError path, before any mutation), else
install the pattern set and, unless the language is additional, add it to
the default active languages.  The result pairs the state after the call
with the error, if one was raised. -/
def load_language (provider : Str → Option PatternSet) (st : FilterState)
    (language : Str) (is_additional : Bool) : FilterState × Option LoadError :=
  if st.languages.contains language then (st, none)
  else
    match provider language with
    | none => (st, some (LoadError.PatternsNotFound language))
    | some ps =>
      ({ languages :=
           if is_additional then st.languages else st.languages ++ [language]
         profanity_patterns := dictInsert st.profanity_patterns language ps },
       none)

/-- The loop of _load_languages over the languages to load, stopping at
the first error. -/
def loadLanguagesGo (provider : Str → Option PatternSet) (is_additional : Bool) :
    List Str → FilterState → FilterState × Option LoadError
  | [], st => (st, none)
  | l :: ls, st =>
    match load_language provider st l is_additional with
    | (st', none) => loadLanguagesGo provider is_additional ls st'
    | (st', some e) => (st', some e)

/-- ProfanityFilter._load_languages: when "all" is requested, load every
language the provider can enumerate (the available list); otherwise load
the requested ones, failing at the first language without patterns.
Python iterates a set here; the iteration order is modelled by the list
order. -/
def load_languages (provider : Str → Option PatternSet) (available : List Str)
    (st : FilterState) (languages : List Str) (is_additional : Bool) :
    FilterState × Option LoadError :=
  let languages_for_loading :=
    if languages.contains (str "all") then available else languages
  loadLanguagesGo provider is_additional languages_for_loading st

/-- ProfanityFilter.add_custom_language: union the given patterns into the
language's pattern set (creating it if absent) and register the key as a
default active language.  Frozenset union is modelled as list append,
which has the same membership semantics. -/
def add_custom_language (st : FilterState) (language : Str)
    (custom_patterns exclude_patterns : List Str) : FilterState :=
  let pp :=
    match dictGet st.profanity_patterns language with
    | some old =>
      dictInsert st.profanity_patterns language
        ⟨old.patterns ++ custom_patterns,
         old.exclude_patterns ++ exclude_patterns⟩
    | none =>
      dictInsert st.profanity_patterns language
        ⟨custom_patterns, exclude_patterns⟩
  { languages :=
      if st.languages.contains language then st.languages
      else st.languages ++ [language]
    profanity_patterns := pp }

/-- ProfanityFilter._load_all_pattern_sets: union the profanity and
exclude patterns of the given languages (absent keys contribute nothing)
and append the call-scoped custom patterns.  The source raises no error
here; it always returns the combined (possibly empty) sets. -/
def load_all_pattern_sets (st : FilterState) (languages : List Str)
    (custom_patterns custom_exclude_patterns : List Str) : PatternSet :=
  let base :=
    languages.foldl
      (fun (acc : PatternSet) lang =>
        match dictGet st.profanity_patterns lang with
        | some ps =>
          ⟨acc.patterns ++ ps.patterns,
           acc.exclude_patterns ++ ps.exclude_patterns⟩
        | none => acc)
      ⟨[], []⟩
  ⟨base.patterns ++ custom_patterns,
   base.exclude_patterns ++ custom_exclude_patterns⟩

theorem startsWith_iff (s p : Str) : startsWith s p = true ↔ ∃ r, s = p ++ r := by
  induction s generalizing p with
  | nil =>
    cases p with
    | nil => simp [startsWith]
    | cons b bs => simp [startsWith]
  | cons a as ih =>
    cases p with
    | nil => exact ⟨fun _ => ⟨a :: as, rfl⟩, fun _ => rfl⟩
    | cons b bs =>
      simp only [startsWith, Bool.and_eq_true, beq_iff_eq, ih, List.cons_append,
        List.cons.injEq]
      constructor
      · rintro ⟨hab, r, hr⟩
        exact ⟨r, hab, hr⟩
      · rintro ⟨r, hab, hr⟩
        exact ⟨hab, r, hr⟩

theorem isSubstring_iff (hay pat : Str) :
    isSubstring hay pat = true ↔ SubstrOf pat hay := by
  induction hay with
  | nil =>
    rw [isSubstring]
    constructor
    · intro h
      split at h
      · rename_i hs
        obtain ⟨r, hr⟩ := (startsWith_iff [] pat).1 hs
        refine ⟨[], r, by simpa using hr⟩
      · simp at h
    · rintro ⟨l, r, hlr⟩
      have hp : pat = [] := by
        rcases List.append_eq_nil.1 hlr.symm with ⟨h1, h2⟩
        exact (List.append_eq_nil.1 h1).2
      subst hp
      simp [startsWith]
  | cons a t ih =>
    rw [isSubstring]
    by_cases hs : startsWith (a :: t) pat = true
    · simp only [hs, if_true, true_iff]
      obtain ⟨r, hr⟩ := (startsWith_iff _ pat).1 hs
      exact ⟨[], r, by simpa using hr⟩
    · simp only [hs, if_false, Bool.false_eq_true]
      rw [ih]
      constructor
      · rintro ⟨l, r, hlr⟩
        exact ⟨a :: l, r, by simp [hlr]⟩
      · rintro ⟨l, r, hlr⟩
        cases l with
        | nil =>
          exfalso
          apply hs
          exact (startsWith_iff _ pat).2 ⟨r, by simpa using hlr⟩
        | cons x l' =>
          simp only [List.cons_append, List.cons.injEq] at hlr
          exact ⟨l', r, hlr.2⟩

/-- C2: for every word w, profanity-pattern set P and exclude-pattern set
E, is_profane_word w P E is true iff no pattern of E is a substring of the
normalized form of w and some pattern of P is a substring of the
normalized form of w; hence exclusion wins whenever both kinds of pattern
match, matching is substring containment, and an empty P always yields a
false verdict. -/
theorem is_profane_word_iff :
    (∀ (w : Str) (P E : List Str),
      is_profane_word w P E = true ↔
        ((∀ e ∈ E, ¬ SubstrOf e (normalize w)) ∧
          ∃ p ∈ P, SubstrOf p (normalize w))) ∧
    (∀ (w : Str) (E : List Str), is_profane_word w [] E = false) := by
  constructor
  · intro w P E
    simp only [is_profane_word, normalize]
    by_cases hE :
        E.any (fun p => isSubstring (normalize_word (pyStrip w)) p) = true
    · rw [if_pos hE]
      rw [List.any_eq_true] at hE
      obtain ⟨e, heE, he⟩ := hE
      simp only [Bool.false_eq_true, false_iff]
      intro hc
      exact hc.1 e heE ((isSubstring_iff _ _).1 he)
    · rw [if_neg hE]
      have hEall : ∀ e ∈ E, ¬ SubstrOf e (normalize_word (pyStrip w)) := by
        intro e he hsub
        exact hE (List.any_eq_true.2 ⟨e, he, (isSubstring_iff _ _).2 hsub⟩)
      rw [List.any_eq_true]
      constructor
      · rintro ⟨p, hp, hps⟩
        exact ⟨hEall, p, hp, (isSubstring_iff _ _).1 hps⟩
      · rintro ⟨_, p, hp, hps⟩
        exact ⟨p, hp, (isSubstring_iff _ _).2 hps⟩
  · intro w E
    simp [is_profane_word]

theorem subChar_of_ge {c : Nat} (h : 128 ≤ c) : subChar c = c := by
  unfold subChar
  split <;> try omega
  split <;> try omega
  split <;> try omega
  split <;> try omega
  split <;> try omega
  split <;> try omega
  split <;> try omega
  split <;> omega

theorem lowerChar_of_ge {c : Nat} (h : 128 ≤ c) : lowerChar c = c := by
  unfold lowerChar
  split <;> omega

theorem isStripChar_of_ge {c : Nat} (h : 128 ≤ c) : isStripChar c = false := by
  simp only [isStripChar, stripCharsL]
  rw [List.contains]
  simp only [List.elem_eq_mem, decide_eq_false_iff_not, List.mem_cons,
    List.not_mem_nil, or_false]
  push_neg
  omega

theorem lowerSub_idem (c : Nat) :
    lowerChar (subChar (lowerChar (subChar c))) = lowerChar (subChar c) := by
  rcases Nat.lt_or_ge c 128 with h | h
  · revert h
    revert c
    decide
  · rw [subChar_of_ge h, lowerChar_of_ge h, subChar_of_ge h, lowerChar_of_ge h]

theorem isStripChar_lowerSub (c : Nat) :
    isStripChar (lowerChar (subChar c)) = isStripChar c := by
  rcases Nat.lt_or_ge c 128 with h | h
  · revert h
    revert c
    decide
  · rw [subChar_of_ge h, lowerChar_of_ge h]

theorem head_dropWhile_not (p : Nat → Bool) (l : Str) :
    ∀ a, (l.dropWhile p).head? = some a → p a = false := by
  induction l with
  | nil => intro a h; simp [List.dropWhile] at h
  | cons x t ih =>
    intro a h
    by_cases hx : p x = true
    · rw [List.dropWhile_cons_of_pos hx] at h
      exact ih a h
    · rw [List.dropWhile_cons_of_neg hx] at h
      simp only [List.head?_cons, Option.some.injEq] at h
      subst h
      simpa using hx

theorem dropWhile_eq_self_of_head (p : Nat → Bool) (l : Str)
    (h : ∀ a, l.head? = some a → p a = false) : l.dropWhile p = l := by
  cases l with
  | nil => rfl
  | cons x t =>
    have hx : p x = false := h x rfl
    simp [List.dropWhile_cons, hx]

theorem getLast?_dropWhile (p : Nat → Bool) (l : Str)
    (h : l.dropWhile p ≠ []) : (l.dropWhile p).getLast? = l.getLast? := by
  induction l with
  | nil => simp [List.dropWhile] at h
  | cons x t ih =>
    by_cases hx : p x = true
    · rw [List.dropWhile_cons_of_pos hx] at h ⊢
      rw [ih h]
      cases t with
      | nil => simp [List.dropWhile] at h
      | cons y t' => simp [List.getLast?_cons_cons]
    · rw [List.dropWhile_cons_of_neg hx]

theorem pyStrip_head_not (w : Str) :
    ∀ a, (pyStrip w).head? = some a → isStripChar a = false := by
  intro a h
  unfold pyStrip at h
  rw [List.head?_reverse] at h
  have hne : ((w.dropWhile isStripChar).reverse.dropWhile isStripChar) ≠ [] := by
    intro he
    rw [he] at h
    simp at h
  rw [getLast?_dropWhile _ _ hne, List.getLast?_reverse] at h
  exact head_dropWhile_not isStripChar _ a h

theorem pyStrip_last_not (w : Str) :
    ∀ a, (pyStrip w).getLast? = some a → isStripChar a = false := by
  intro a h
  unfold pyStrip at h
  rw [List.getLast?_reverse] at h
  exact head_dropWhile_not isStripChar _ a h

theorem pyStrip_eq_self (w : Str)
    (h1 : ∀ a, w.head? = some a → isStripChar a = false)
    (h2 : ∀ a, w.getLast? = some a → isStripChar a = false) :
    pyStrip w = w := by
  unfold pyStrip
  rw [dropWhile_eq_self_of_head _ _ h1]
  rw [dropWhile_eq_self_of_head _ _ (by
    intro a ha
    rw [List.head?_reverse] at ha
    exact h2 a ha)]
  exact List.reverse_reverse w

theorem pyStrip_idem (w : Str) : pyStrip (pyStrip w) = pyStrip w :=
  pyStrip_eq_self _ (pyStrip_head_not w) (pyStrip_last_not w)

theorem dropWhile_map (p : Nat → Bool) (f : Nat → Nat) (l : Str) :
    (l.map f).dropWhile p = (l.dropWhile (fun c => p (f c))).map f := by
  induction l with
  | nil => rfl
  | cons x t ih =>
    simp only [List.map_cons, List.dropWhile_cons]
    cases hx : p (f x) with
    | true => simp [hx, ih]
    | false => simp [hx]

theorem pyStrip_map {f : Nat → Nat}
    (hf : ∀ c, isStripChar (f c) = isStripChar c) (l : Str) :
    pyStrip (l.map f) = (pyStrip l).map f := by
  have hfe : (fun c => isStripChar (f c)) = isStripChar := funext hf
  unfold pyStrip
  rw [dropWhile_map, hfe, ← List.map_reverse, dropWhile_map, hfe,
    ← List.map_reverse]

/-- C5: normalization is idempotent: normalize (normalize x) = normalize x
for every string x, where normalize is the strip-boundary-punctuation,
leetspeak-substitution and lowercase pipeline of profanity_filter.py:373. -/
theorem normalize_idem (x : Str) : normalize (normalize x) = normalize x := by
  have hmm : ∀ w : Str,
      normalize_word w = w.map (fun c => lowerChar (subChar c)) := by
    intro w
    unfold normalize_word
    rw [List.map_map]
    rfl
  unfold normalize
  rw [hmm, hmm, pyStrip_map isStripChar_lowerSub, pyStrip_idem, List.map_map]
  congr 1
  funext c
  exact lowerSub_idem c

/-- C10: the profanity verdict is invariant under boundary punctuation:
for every word w and pattern sets P and E, is_profane_word gives the same
verdict on w and on its stripped form, because the classifier strips the
word first and stripping is idempotent. -/
theorem is_profane_word_strip (w : Str) (P E : List Str) :
    is_profane_word w P E = is_profane_word (pyStrip w) P E := by
  unfold is_profane_word
  rw [pyStrip_idem]

theorem censorFold_count (P E : List Str) (pc : Bool) (sym : Nat)
    (ws : List Str) (st : CState) :
    (censorFold P E pc sym ws st).count =
      st.count + (ws.filter (fun w => is_profane_word w P E)).length := by
  induction ws generalizing st with
  | nil => simp [censorFold]
  | cons w ws ih =>
    rw [censorFold]
    cases hw : is_profane_word w P E with
    | true =>
      simp only [if_true, ih, List.filter_cons, hw]
      simp
      omega
    | false =>
      simp only [Bool.false_eq_true, if_false, ih, List.filter_cons, hw]

theorem censorFold_clean (P E : List Str) (pc : Bool) (sym : Nat)
    (ws : List Str) (st : CState)
    (h : ∀ w ∈ ws, is_profane_word w P E = false) :
    censorFold P E pc sym ws st = st := by
  induction ws with
  | nil => rfl
  | cons w ws ih =>
    rw [censorFold]
    have hw := h w (List.mem_cons_self w ws)
    simp only [hw, Bool.false_eq_true, if_false]
    exact ih (fun v hv => h v (List.mem_cons_of_mem w hv))

theorem censorGo_clean (P E : List Str) (pc : Bool) (sym : Nat)
    (ws : List Str) (acc : Str)
    (h : ∀ w ∈ ws, is_profane_word w P E = false) :
    censorGo P E pc sym ws acc = acc := by
  induction ws with
  | nil => rfl
  | cons w ws ih =>
    rw [censorGo]
    have hw := h w (List.mem_cons_self w ws)
    simp only [hw, Bool.false_eq_true, if_false]
    exact ih (fun v hv => h v (List.mem_cons_of_mem w hv))

/-- C3: the censor result record carries the input back unchanged in
original, counts in words_censored exactly the tokens classified profane
during the pass, and sets is_profane exactly when that count is positive.
The record-returning censor is modelled from the spec, since src's censor
returns only the censored string. -/
theorem censorT_record (text : Str) (P E : List Str) (pc : Bool) (sym : Nat) :
    (censorT text P E pc sym).original = text ∧
    (censorT text P E pc sym).words_censored =
      ((pySplit text).filter (fun w => is_profane_word w P E)).length ∧
    ((censorT text P E pc sym).is_profane = true ↔
      0 < (censorT text P E pc sym).words_censored) := by
  refine ⟨rfl, ?_, ?_⟩
  · unfold censorT
    simp [censorFold_count]
  · unfold censorT
    simp

/-- C6: non-profane passthrough: when no whitespace token of the text is
classified profane, the censored string equals the input byte for byte
and words_censored is zero; the plain-string censor of src likewise
returns the text unchanged. -/
theorem censor_clean_passthrough (text : Str) (P E : List Str) (pc : Bool)
    (sym : Nat) (h : ∀ w ∈ pySplit text, is_profane_word w P E = false) :
    (censorT text P E pc sym).censored = text ∧
    (censorT text P E pc sym).words_censored = 0 ∧
    censor text P E pc sym = text := by
  have h1 := censorFold_clean P E pc sym (pySplit text) ⟨text, 0, 0⟩ h
  refine ⟨?_, ?_, ?_⟩
  · unfold censorT
    rw [h1]
  · unfold censorT
    rw [h1]
  · exact censorGo_clean P E pc sym (pySplit text) text h

/-- Witness for C6 at a concrete clean text. -/
theorem censor_clean_passthrough_witness :
    (∀ w ∈ pySplit (str "This is a very good text."),
      is_profane_word w [str "fuck"] [] = false) ∧
    ((censorT (str "This is a very good text.") [str "fuck"] [] false 35).censored =
        str "This is a very good text." ∧
      (censorT (str "This is a very good text.") [str "fuck"] [] false 35).words_censored = 0 ∧
      censor (str "This is a very good text.") [str "fuck"] [] false 35 =
        str "This is a very good text.") :=
  ⟨by decide, censor_clean_passthrough _ _ _ _ _ (by decide)⟩

/-- C4: partial censoring keeps the first and last original characters of
a stripped word longer than 2 characters and masks every interior
character; for length at most 2 it falls back to full censoring; and
censor_word on the word fuck with partial censoring and the censoring
character # (code point 35) gives f##k. -/
theorem censor_word_keeps_ends (w : Str) (c : Nat) :
    (2 < w.length → censor_word w true c =
      w.take 1 ++ List.replicate (w.length - 2) c ++ w.drop (w.length - 1)) ∧
    (w.length ≤ 2 → censor_word w true c = List.replicate w.length c) ∧
    censor_word (str "fuck") true 35 = str "f##k" := by
  refine ⟨?_, ?_, by decide⟩
  · intro h
    unfold censor_word
    rw [if_pos]
    simp [h]
  · intro h
    unfold censor_word
    rw [if_neg]
    simp
    omega

/-- Witness for C4 at concrete words of lengths 4 and 2. -/
theorem censor_word_keeps_ends_witness :
    (2 < (str "damn").length ∧ censor_word (str "damn") true 35 =
      (str "damn").take 1 ++ List.replicate ((str "damn").length - 2) 35 ++
        (str "damn").drop ((str "damn").length - 1)) ∧
    ((str "hi").length ≤ 2 ∧
      censor_word (str "hi") true 35 = List.replicate (str "hi").length 35) :=
  ⟨⟨by decide, (censor_word_keeps_ends (str "damn") 35).1 (by decide)⟩,
   ⟨by decide, (censor_word_keeps_ends (str "hi") 35).2.1 (by decide)⟩⟩

/-- C1 fails on the code: ProfanityFilter.censor rewrites the running
text with str.replace, which substitutes every occurrence of the profane
token's stripped form.  With profanity pattern fuck and exclude pattern
fuckbar, the text "fuck fuckbar" censors to "#### ####bar": the token
fuckbar is classified clean (first conjunct), yet its occurrence is
rewritten, so clean tokens do not stay byte-identical as the claim (and
the spec's occurrence-safety requirement) demands. -/
theorem censor_blind_replace_bug :
    is_profane_word (str "fuckbar") [str "fuck"] [str "fuckbar"] = false ∧
    censor (str "fuck fuckbar") [str "fuck"] [str "fuckbar"] false 35 =
      str "#### ####bar" ∧
    str "#### ####bar" ≠ str "#### fuckbar" := by decide

theorem dictGet_dictInsert_self (d : List (Str × PatternSet)) (k : Str)
    (v : PatternSet) : dictGet (dictInsert d k v) k = some v := by
  induction d with
  | nil => simp [dictInsert, dictGet]
  | cons p t ih =>
    obtain ⟨k', v'⟩ := p
    by_cases hk : k' = k
    · simp [dictInsert, dictGet, hk]
    · simp [dictInsert, dictGet, hk, ih]

theorem dictGet_dictInsert_ne (d : List (Str × PatternSet)) (k k' : Str)
    (v : PatternSet) (h : k' ≠ k) :
    dictGet (dictInsert d k v) k' = dictGet d k' := by
  induction d with
  | nil =>
    simp only [dictInsert, dictGet]
    rw [if_neg (fun he => h he.symm)]
  | cons p t ih =>
    obtain ⟨a, b2⟩ := p
    by_cases ha : a = k
    · subst ha
      simp only [dictInsert, if_pos rfl, dictGet]
      rw [if_neg (fun he => h he.symm), if_neg (fun he => h he.symm)]
    · simp only [dictInsert, if_neg ha, dictGet]
      by_cases hak : a = k'
      · rw [if_pos hak, if_pos hak]
      · rw [if_neg hak, if_neg hak, ih]

theorem dictGet_dictInsert_isSome (d : List (Str × PatternSet)) (k k' : Str)
    (v : PatternSet) (h : (dictGet d k').isSome) :
    (dictGet (dictInsert d k v) k').isSome := by
  by_cases hk : k' = k
  · subst hk
    rw [dictGet_dictInsert_self]
    rfl
  · rwa [dictGet_dictInsert_ne d k k' v hk]

theorem contains_append_left {l : List Str} (l' : List Str) {k : Str}
    (h : l.contains k = true) : (l ++ l').contains k = true := by
  rw [List.contains, List.elem_eq_mem, decide_eq_true_iff] at h ⊢
  exact List.mem_append_left l' h

/-- C7: loading a language key for which the data provider has no
patterns fails with PatternsNotFound for that language and leaves the
state exactly as it was, so nothing is installed for that language;
when the provider does have the patterns, the load succeeds and the
language's full pattern set is installed in the registry. -/
theorem load_unknown_language_fails :
    (∀ (provider : Str → Option PatternSet) (available : List Str)
       (st : FilterState) (lang : Str) (b : Bool),
      ([lang].contains (str "all")) = false →
      st.languages.contains lang = false →
      provider lang = none →
      load_languages provider available st [lang] b =
        (st, some (LoadError.PatternsNotFound lang))) ∧
    (∀ (provider : Str → Option PatternSet) (available : List Str)
       (st : FilterState) (lang : Str) (b : Bool) (ps : PatternSet),
      ([lang].contains (str "all")) = false →
      st.languages.contains lang = false →
      provider lang = some ps →
      (load_languages provider available st [lang] b).2 = none ∧
      dictGet (load_languages provider available st [lang] b).1.profanity_patterns
        lang = some ps) := by
  constructor
  · intro provider available st lang b hall hnew hnone
    unfold load_languages
    rw [if_neg (by rw [hall]; simp)]
    rw [loadLanguagesGo]
    unfold load_language
    rw [if_neg (by rw [hnew]; simp), hnone]
  · intro provider available st lang b ps hall hnew hsome
    unfold load_languages
    rw [if_neg (by rw [hall]; simp)]
    rw [loadLanguagesGo]
    unfold load_language
    rw [if_neg (by rw [hnew]; simp), hsome]
    exact ⟨rfl, dictGet_dictInsert_self _ _ _⟩

/-- Witness for C7: a provider with no data at all fails on the language
key xx from the empty state, and a provider holding patterns for xx
installs them. -/
theorem load_unknown_language_fails_witness :
    (([str "xx"].contains (str "all")) = false ∧
      (FilterState.mk [] []).languages.contains (str "xx") = false ∧
      (fun (_ : Str) => (none : Option PatternSet)) (str "xx") = none ∧
      load_languages (fun _ => none) [] ⟨[], []⟩ [str "xx"] false =
        (⟨[], []⟩, some (LoadError.PatternsNotFound (str "xx")))) ∧
    ((load_languages (fun _ => some ⟨[str "bad"], []⟩) [] ⟨[], []⟩
        [str "xx"] false).2 = none ∧
      dictGet (load_languages (fun _ => some ⟨[str "bad"], []⟩) [] ⟨[], []⟩
        [str "xx"] false).1.profanity_patterns (str "xx") =
        some ⟨[str "bad"], []⟩) :=
  ⟨⟨by decide, by decide, rfl,
    load_unknown_language_fails.1 (fun _ => none) [] ⟨[], []⟩ (str "xx") false
      (by decide) (by decide) rfl⟩,
   load_unknown_language_fails.2 (fun _ => some ⟨[str "bad"], []⟩) [] ⟨[], []⟩
     (str "xx") false ⟨[str "bad"], []⟩ (by decide) (by decide) rfl⟩

/-- C8 fails on the code: _load_all_pattern_sets raises no error at all;
invoked with zero resolved languages and no custom patterns it silently
returns the empty profanity and exclude pattern sets instead of failing
with NoLanguagesSpecified (no such error exists anywhere in the source). -/
theorem load_all_pattern_sets_empty_cex :
    load_all_pattern_sets ⟨[], []⟩ [] [] [] =
      PatternSet.mk [] [] := rfl

/-- C8 amended: the pattern-combination step invoked with zero resolved
languages and no custom patterns does not fail; for every state it
returns the empty profanity-pattern and exclude-pattern sets. -/
theorem load_all_pattern_sets_empty (st : FilterState) :
    load_all_pattern_sets st [] [] [] = PatternSet.mk [] [] := rfl

theorem load_language_langs_mono (provider : Str → Option PatternSet)
    (st : FilterState) (lang : Str) (b : Bool) (k : Str)
    (h : st.languages.contains k = true) :
    (load_language provider st lang b).1.languages.contains k = true := by
  unfold load_language
  by_cases hc : st.languages.contains lang = true
  · rw [if_pos hc]
    exact h
  · rw [if_neg hc]
    cases hp : provider lang with
    | none => exact h
    | some ps =>
      cases b with
      | true => exact h
      | false => exact contains_append_left [lang] h

theorem load_language_dict_mono (provider : Str → Option PatternSet)
    (st : FilterState) (lang : Str) (b : Bool) (k : Str)
    (h : (dictGet st.profanity_patterns k).isSome) :
    (dictGet (load_language provider st lang b).1.profanity_patterns k).isSome := by
  unfold load_language
  by_cases hc : st.languages.contains lang = true
  · rw [if_pos hc]
    exact h
  · rw [if_neg hc]
    cases hp : provider lang with
    | none => exact h
    | some ps => exact dictGet_dictInsert_isSome _ _ _ _ h

theorem loadLanguagesGo_langs_mono (provider : Str → Option PatternSet)
    (b : Bool) (ls : List Str) (st : FilterState) (k : Str)
    (h : st.languages.contains k = true) :
    (loadLanguagesGo provider b ls st).1.languages.contains k = true := by
  induction ls generalizing st with
  | nil => exact h
  | cons l ls ih =>
    rw [loadLanguagesGo]
    rcases hl : load_language provider st l b with ⟨st', e⟩
    have h' : st'.languages.contains k = true := by
      have := load_language_langs_mono provider st l b k h
      rwa [hl] at this
    cases e with
    | none => exact ih st' h'
    | some err => exact h'

theorem loadLanguagesGo_dict_mono (provider : Str → Option PatternSet)
    (b : Bool) (ls : List Str) (st : FilterState) (k : Str)
    (h : (dictGet st.profanity_patterns k).isSome) :
    (dictGet (loadLanguagesGo provider b ls st).1.profanity_patterns k).isSome := by
  induction ls generalizing st with
  | nil => exact h
  | cons l ls ih =>
    rw [loadLanguagesGo]
    rcases hl : load_language provider st l b with ⟨st', e⟩
    have h' : (dictGet st'.profanity_patterns k).isSome := by
      have := load_language_dict_mono provider st l b k h
      rwa [hl] at this
    cases e with
    | none => exact ih st' h'
    | some err => exact h'

theorem add_custom_language_langs_mono (st : FilterState) (lang : Str)
    (ps ex : List Str) (k : Str) (h : st.languages.contains k = true) :
    (add_custom_language st lang ps ex).languages.contains k = true := by
  have hl : (add_custom_language st lang ps ex).languages =
      if st.languages.contains lang = true then st.languages
      else st.languages ++ [lang] := rfl
  rw [hl]
  by_cases hc : st.languages.contains lang = true
  · rw [if_pos hc]
    exact h
  · rw [if_neg hc]
    exact contains_append_left [lang] h

theorem add_custom_language_patterns_mono (st : FilterState) (lang : Str)
    (ps ex : List Str) (k : Str) (q : PatternSet)
    (h : dictGet st.profanity_patterns k = some q) :
    ∃ q', dictGet (add_custom_language st lang ps ex).profanity_patterns k =
        some q' ∧
      (∀ x, q.patterns.contains x = true → q'.patterns.contains x = true) ∧
      (∀ x, q.exclude_patterns.contains x = true →
        q'.exclude_patterns.contains x = true) := by
  have hpp : (add_custom_language st lang ps ex).profanity_patterns =
      match dictGet st.profanity_patterns lang with
      | some old =>
        dictInsert st.profanity_patterns lang
          ⟨old.patterns ++ ps, old.exclude_patterns ++ ex⟩
      | none => dictInsert st.profanity_patterns lang ⟨ps, ex⟩ := rfl
  rw [hpp]
  by_cases hk : k = lang
  · subst hk
    rw [h]
    refine ⟨⟨q.patterns ++ ps, q.exclude_patterns ++ ex⟩, ?_, ?_, ?_⟩
    · exact dictGet_dictInsert_self _ _ _
    · exact fun x hx => contains_append_left ps hx
    · exact fun x hx => contains_append_left ex hx
  · refine ⟨q, ?_, fun x hx => hx, fun x hx => hx⟩
    cases hg : dictGet st.profanity_patterns lang with
    | none =>
      exact (dictGet_dictInsert_ne st.profanity_patterns lang k
        ⟨ps, ex⟩ hk).trans h
    | some old =>
      exact (dictGet_dictInsert_ne st.profanity_patterns lang k
        ⟨old.patterns ++ ps, old.exclude_patterns ++ ex⟩ hk).trans h

/-- C9: the language registry grows monotonically.  Loading a language
already among the default active languages is an exact no-op; loading
one language or a list of languages never removes a key from the default
active languages or from the pattern registry; and adding custom
patterns never removes a key, and only grows the stored pattern set of
the touched language. -/
theorem registry_monotone :
    (∀ (provider : Str → Option PatternSet) (st : FilterState) (lang : Str)
       (b : Bool), st.languages.contains lang = true →
      load_language provider st lang b = (st, none)) ∧
    (∀ (provider : Str → Option PatternSet) (st : FilterState) (lang : Str)
       (b : Bool) (k : Str),
      (st.languages.contains k = true →
        (load_language provider st lang b).1.languages.contains k = true) ∧
      ((dictGet st.profanity_patterns k).isSome →
        (dictGet (load_language provider st lang b).1.profanity_patterns k).isSome)) ∧
    (∀ (provider : Str → Option PatternSet) (b : Bool) (ls : List Str)
       (st : FilterState) (k : Str),
      (st.languages.contains k = true →
        (loadLanguagesGo provider b ls st).1.languages.contains k = true) ∧
      ((dictGet st.profanity_patterns k).isSome →
        (dictGet (loadLanguagesGo provider b ls st).1.profanity_patterns k).isSome)) ∧
    (∀ (st : FilterState) (lang : Str) (ps ex : List Str) (k : Str),
      (st.languages.contains k = true →
        (add_custom_language st lang ps ex).languages.contains k = true) ∧
      (∀ q, dictGet st.profanity_patterns k = some q →
        ∃ q', dictGet (add_custom_language st lang ps ex).profanity_patterns k =
            some q' ∧
          (∀ x, q.patterns.contains x = true → q'.patterns.contains x = true) ∧
          (∀ x, q.exclude_patterns.contains x = true →
            q'.exclude_patterns.contains x = true))) := by
  refine ⟨?_, ?_, ?_, ?_⟩
  · intro provider st lang b h
    unfold load_language
    rw [if_pos h]
  · intro provider st lang b k
    exact ⟨load_language_langs_mono provider st lang b k,
      load_language_dict_mono provider st lang b k⟩
  · intro provider b ls st k
    exact ⟨loadLanguagesGo_langs_mono provider b ls st k,
      loadLanguagesGo_dict_mono provider b ls st k⟩
  · intro st lang ps ex k
    exact ⟨add_custom_language_langs_mono st lang ps ex k,
      add_custom_language_patterns_mono st lang ps ex k⟩

/-- Witness for C9: reloading the already-loaded language en is a no-op,
and the monotonicity parts hold at the same concrete state. -/
theorem registry_monotone_witness :
    ((FilterState.mk [str "en"]
        [(str "en", ⟨[str "fuck"], []⟩)]).languages.contains (str "en") = true ∧
      load_language (fun _ => none)
        ⟨[str "en"], [(str "en", ⟨[str "fuck"], []⟩)]⟩ (str "en") false =
        (⟨[str "en"], [(str "en", ⟨[str "fuck"], []⟩)]⟩, none)) ∧
    ((loadLanguagesGo (fun _ => none) false [str "de"]
        ⟨[str "en"], [(str "en", ⟨[str "fuck"], []⟩)]⟩).1.languages.contains
        (str "en") = true) ∧
    (∃ q', dictGet (add_custom_language
        ⟨[str "en"], [(str "en", ⟨[str "fuck"], []⟩)]⟩ (str "en")
        [str "merde"] []).profanity_patterns (str "en") = some q' ∧
      (∀ x, (PatternSet.mk [str "fuck"] []).patterns.contains x = true →
        q'.patterns.contains x = true) ∧
      (∀ x, (PatternSet.mk [str "fuck"] []).exclude_patterns.contains x = true →
        q'.exclude_patterns.contains x = true)) :=
  ⟨⟨by decide,
    registry_monotone.1 (fun _ => none)
      ⟨[str "en"], [(str "en", ⟨[str "fuck"], []⟩)]⟩ (str "en") false (by decide)⟩,
   (registry_monotone.2.2.1 (fun _ => none) false [str "de"]
      ⟨[str "en"], [(str "en", ⟨[str "fuck"], []⟩)]⟩ (str "en")).1 (by decide),
   (registry_monotone.2.2.2
      ⟨[str "en"], [(str "en", ⟨[str "fuck"], []⟩)]⟩ (str "en")
      [str "merde"] [] (str "en")).2 ⟨[str "fuck"], []⟩ (by decide)⟩

end Censore
